import Mathlib

/-!
Shallow embedding of `src/packages/core/src/buffer.rs` (piece-table text
buffer) and verification of the frozen claims about it.

Modelling conventions:
* Text is represented as a list of grapheme clusters (`GStr := List String`),
  mirroring the `unicode_segmentation` view the Rust code operates on.
  In particular a CRLF pair that forms a single extended grapheme cluster is
  one list element `"\r\n"`, while a bare CR or LF is its own element.
* Rust `i32` values are modelled as `Int`; the claims only exercise values far
  from the wrap-around range, so two-complement overflow is not modelled.
* Code paths that panic in Rust (`expect`, `todo!`, out-of-bounds indexing,
  `Vec::remove` on an empty vector, slicing past the end) are modelled by
  `Option`, with `none` standing for a panic.
* The intrusive red-black tree (`RBTree<NodeAdapter>`, keyed by
  `Node::total_size`) is modelled as a list of nodes in ascending key order,
  which is exactly the order the cursor based code (`front`, `move_next`,
  `move_prev`, `find`) observes.
-/

set_option autoImplicit false

namespace Dip

/-- A grapheme-segmented string: the sequence of extended grapheme clusters
that `UnicodeSegmentation::graphemes(true)` yields. -/
abbrev GStr := List String

/-- Byte offset / grapheme pairs, as produced by `grapheme_indices(true)`. -/
def byteOffsetsFrom (off : Nat) : GStr → List (Nat × String)
  | [] => []
  | g :: rest => (off, g) :: byteOffsetsFrom (off + g.utf8ByteSize) rest

/-- The `value.grapheme_indices(true).enumerate()` iterator, materialised:
elements are `(enumeration index, byte offset, grapheme)`. -/
def enumGraphemes (gs : GStr) : List (Nat × Nat × String) :=
  ((byteOffsetsFrom 0 gs).enum).map (fun p => (p.1, p.2.1, p.2.2))

/-- `BufferCursor` from buffer.rs: a (line, column) position local to one buffer. -/
structure BufferCursor where
  line : Int
  column : Int
deriving DecidableEq, Repr

/-- `BufferCursor::new`. -/
def BufferCursor.new (line column : Int) : BufferCursor := ⟨line, column⟩

/-- Rust `#[derive(Default)]` for `BufferCursor`. -/
def BufferCursor.defaultCursor : BufferCursor := ⟨0, 0⟩

/-- `Piece` from buffer.rs. The Rust field `end` is called `end_` here
(`end` is a Lean keyword). -/
structure Piece where
  buffer_index : Option Int
  start : BufferCursor
  end_ : BufferCursor
  len : Int
  line_feed_count : Int
deriving DecidableEq, Repr

/-- `Piece::new` — note the Rust parameter order `(buffer_index, start, end,
line_feed_count, len)`. -/
def Piece.new (buffer_index : Option Int) (start end_ : BufferCursor)
    (line_feed_count len : Int) : Piece :=
  ⟨buffer_index, start, end_, len, line_feed_count⟩

/-- Rust `#[derive(Default)]` for `Piece`. -/
def Piece.defaultPiece : Piece :=
  ⟨none, BufferCursor.defaultCursor, BufferCursor.defaultCursor, 0, 0⟩

/-- `Node` from buffer.rs (the intrusive link is part of the tree model, not
of the node value). -/
structure Node where
  piece : Piece
  left_size : Int
  left_line_feed_count : Int
  parent_key : Option Int
deriving DecidableEq, Repr

/-- Rust `#[derive(Default)]` for `Node`. -/
def Node.defaultNode : Node := ⟨Piece.defaultPiece, 0, 0, none⟩

/-- `Node::total_size`. -/
def Node.total_size (n : Node) : Int := n.left_size + n.piece.len

/-- `Node::new`: only the piece is set, everything else keeps its default. -/
def Node.new (buffer_index : Option Int) (start end_ : BufferCursor)
    (len line_feed_count : Int) : Node :=
  { Node.defaultNode with piece := Piece.new buffer_index start end_ line_feed_count len }

/-- `Buffer` from buffer.rs. -/
structure Buffer where
  value : GStr
  line_starts : List Int
deriving DecidableEq, Repr

/-- Rust `#[derive(Default)]` for `Buffer`. -/
def Buffer.defaultBuffer : Buffer := ⟨[], []⟩

/-- `Buffer::new`. -/
def Buffer.new (value : GStr) (line_starts : List Int) : Buffer := ⟨value, line_starts⟩

/-- Loop of `Buffer::get_line_starts`. The Rust code iterates
`grapheme_indices(true).enumerate()`; on a bare `"\r"` grapheme it calls
`enumerate.nth(i + 1)` (discarding the result), which consumes `i + 2`
further elements of the iterator — that skip is modelled by the `skip`
counter. On `"\n"` it pushes `byte offset + 1`. A CRLF pair is a single
grapheme cluster `"\r\n"` and matches neither arm. -/
def glsLoop : List (Nat × Nat × String) → Nat → List Int → List Int
  | [], _, ls => ls
  | _ :: rest, skip + 1, ls => glsLoop rest skip ls
  | (i, off, g) :: rest, 0, ls =>
    if g = "\r" then glsLoop rest (i + 2) (ls ++ [(off : Int) + 1])
    else if g = "\n" then glsLoop rest 0 (ls ++ [(off : Int) + 1])
    else glsLoop rest 0 ls

/-- `Buffer::get_line_starts`. -/
def Buffer.get_line_starts (value : GStr) : List Int :=
  glsLoop (enumGraphemes value) 0 [0]

/-- `impl From<&str> for Buffer`. -/
def Buffer.fromStr (value : GStr) : Buffer :=
  Buffer.new value (Buffer.get_line_starts value)

/-- `Buffer::offset`: `line_starts.get(cursor.line as usize).unwrap_or(&0) +
cursor.column`. A negative line wraps to a huge `usize`, so `get` misses and
the `0` default is used. -/
def Buffer.offset (b : Buffer) (c : BufferCursor) : Int :=
  (if 0 ≤ c.line then b.line_starts.getD c.line.toNat 0 else 0) + c.column

/-- `Buffer::get_line_feed_count`. Indexing panics (negative line wrapped to a
huge `usize`, index past the end, `end_offset as usize - 1` underflow) are
modelled as `none`. -/
def Buffer.get_line_feed_count (b : Buffer) (start end_ : BufferCursor) :
    Option Int :=
  if end_.column = 0 ∨ end_.line = (b.line_starts.length : Int) - 1 then
    some (end_.line - start.line)
  else if h : 0 ≤ end_.line ∧ end_.line.toNat + 1 < b.line_starts.length then
    let next_line_start_offset := b.line_starts.get ⟨end_.line.toNat + 1, h.2⟩
    let end_offset := b.line_starts.getD end_.line.toNat 0 + end_.column
    if next_line_start_offset > end_offset + 1 then
      some (end_.line - start.line)
    else if h2 : 1 ≤ end_offset ∧ (end_offset - 1).toNat < b.value.length then
      if b.value.get ⟨(end_offset - 1).toNat, h2.2⟩ = "\r" then
        some (end_.line - start.line + 1)
      else
        some (end_.line - start.line)
    else none
  else none

/-- `impl From<&Buffer> for Node`. -/
def Node.from_buffer (buffer : Buffer) : Node :=
  let grapheme_len : Int := (buffer.value.length : Int)
  let line_starts_len : Int := (buffer.line_starts.length : Int)
  let end_line : Int := if line_starts_len = 0 then 0 else line_starts_len - 1
  Node.new none (BufferCursor.new 0 0)
    (BufferCursor.new end_line (grapheme_len - (buffer.line_starts.getLast?.getD 0)))
    grapheme_len
    (line_starts_len - 1)

/-- `Node::start_with_lf_from_string` — note the Rust body inspects the *last*
grapheme of the string. -/
def Node.start_with_lf_from_string (value : GStr) : Bool :=
  value.getLast? = some "\n"

/-- `Node::end_with_cr_from_string` — also inspects the last grapheme. -/
def Node.end_with_cr_from_string (value : GStr) : Bool :=
  value.getLast? = some "\r"

/-- `Node::start_with_lf(buffer)`. The unguarded `line_starts[start.line + 1]`
index can panic, modelled as `none`. `nth(start_offset as usize)` on a
negative offset wraps to a huge index, so `nth` yields `None` and the
comparison is `false`. -/
def Node.start_with_lf (n : Node) (buffer : Buffer) : Option Bool :=
  if buffer.line_starts.length = 0 then
    some false
  else if n.piece.start.line = (buffer.line_starts.length : Int) - 1 then
    some false
  else if h : 0 ≤ n.piece.start.line ∧
      n.piece.start.line.toNat + 1 < buffer.line_starts.length then
    let next_line_offset := buffer.line_starts.get ⟨n.piece.start.line.toNat + 1, h.2⟩
    let start_offset :=
      buffer.line_starts.getD n.piece.start.line.toNat 0 + n.piece.start.column
    if next_line_offset > start_offset + 1 then
      some false
    else
      some ((if 0 ≤ start_offset then buffer.value.get? start_offset.toNat else none)
            = some "\n")
  else none

/-- `DefaultEOL` from buffer.rs. -/
inductive DefaultEOL where
  | LF
  | CRLF
deriving DecidableEq, Repr

/-- `EOL` from buffer.rs. -/
inductive EOL where
  | LF
  | CR
  | CRLF
deriving DecidableEq, Repr

/-- `CharacterEncoding` from buffer.rs. -/
inductive CharacterEncoding where
  | Utf8
  | Utf8WithBom
deriving DecidableEq, Repr

/-- `const UTF8_BOM` as a grapheme cluster. -/
def UTF8_BOM : String := "\uFEFF"

/-- `impl From<&str> for CharacterEncoding`: `s.starts_with(UTF8_BOM)`. On the
grapheme view a leading BOM is its own cluster. -/
def CharacterEncoding.fromValue (s : GStr) : CharacterEncoding :=
  match s with
  | g :: _ => if g = UTF8_BOM then CharacterEncoding.Utf8WithBom else CharacterEncoding.Utf8
  | [] => CharacterEncoding.Utf8

/-- `LineBreakCount` from buffer.rs. -/
structure LineBreakCount where
  cr : Int
  lf : Int
  crlf : Int
deriving DecidableEq, Repr

/-- `TextBufferInfo` from buffer.rs. -/
structure TextBufferInfo where
  encoding : CharacterEncoding
  eol : EOL
  eos_normalized : Bool
  is_ascii : Bool
deriving DecidableEq, Repr

/-- Rust `#[derive(Default)]` for `TextBufferInfo` (`bool` defaults to `false`,
the enum defaults are `Utf8` and `EOL::LF`). -/
def TextBufferInfo.defaultInfo : TextBufferInfo :=
  ⟨CharacterEncoding.Utf8, EOL.LF, false, false⟩

/-- `c.is_ascii()` on a grapheme cluster. -/
def isAsciiGrapheme (g : String) : Bool :=
  g.toList.all (fun c => c.toNat < 128)

/-- Scan state of the `TextBufferInfo::new_with_meta` loop. -/
structure NwmState where
  line_starts : List Int
  lbc : LineBreakCount
  is_ascii : Bool
deriving DecidableEq, Repr

/-- Loop body of `TextBufferInfo::new_with_meta`. On `"\r"` the code matches
`enumerate.nth(i + 1)`, which returns the element `i + 1` positions ahead and
consumes `i + 2` elements (the `skip` counter); the `"\n"` match arm pushes
the byte offset of that far element, the other arms push the byte offset of
the CR itself. Note the pushed offsets are *not* incremented here, unlike in
`Buffer::get_line_starts`. -/
def nwmLoop : List (Nat × Nat × String) → Nat → NwmState → NwmState
  | [], _, st => st
  | _ :: rest, skip + 1, st => nwmLoop rest skip st
  | (i, off, g) :: rest, 0, st =>
    if g = "\r" then
      match rest.get? (i + 1) with
      | some (_, off2, g2) =>
        if g2 = "\n" then
          nwmLoop rest (i + 2)
            { st with line_starts := st.line_starts ++ [(off2 : Int)],
                      lbc := { st.lbc with crlf := st.lbc.crlf + 1 } }
        else
          nwmLoop rest (i + 2)
            { st with line_starts := st.line_starts ++ [(off : Int)],
                      lbc := { st.lbc with cr := st.lbc.cr + 1 } }
      | none =>
        nwmLoop rest (i + 2)
          { st with line_starts := st.line_starts ++ [(off : Int)],
                    lbc := { st.lbc with cr := st.lbc.cr + 1 } }
    else if g = "\n" then
      nwmLoop rest 0
        { st with line_starts := st.line_starts ++ [(off : Int)],
                  lbc := { st.lbc with lf := st.lbc.lf + 1 } }
    else
      nwmLoop rest 0
        { st with is_ascii := st.is_ascii && isAsciiGrapheme g }

/-- `TextBufferInfo::new_with_meta`. The Rust code evaluates
`let grapheme_len = enumerate.count() as i32;` before its `while let` loop;
`count()` drains the shared iterator, so the loop runs on an exhausted
iterator (modelled by `es.drop es.length = []`) and the scan never records
anything. -/
def TextBufferInfo.new_with_meta (value : GStr) (default_eol : DefaultEOL) :
    TextBufferInfo × List Int :=
  let encoding := CharacterEncoding.fromValue value
  let es := enumGraphemes value
  let grapheme_len : Int := (es.length : Int)
  let st := nwmLoop (es.drop es.length) 0 ⟨[0], ⟨0, 0, 0⟩, true⟩
  let total_eol_count := st.lbc.cr + st.lbc.lf + st.lbc.crlf
  let total_cr_count := st.lbc.cr + st.lbc.crlf
  let eol :=
    if total_eol_count = 0 ∧ default_eol = DefaultEOL.LF then EOL.LF
    else if total_eol_count = 0 ∨ total_cr_count > total_eol_count / 2 then EOL.CRLF
    else EOL.LF
  let _ := grapheme_len
  (⟨encoding, eol, false, st.is_ascii⟩, st.line_starts)

/-- `TextBufferInfo::should_check_crlf`. -/
def TextBufferInfo.should_check_crlf (info : TextBufferInfo) : Bool :=
  !(info.eos_normalized && (info.eol == EOL.LF))

/-- `NodePosition` from buffer.rs. -/
structure NodePosition where
  node : Node
  remainder : Int
  node_start_offset : Int
deriving DecidableEq, Repr

/-- `NodePosition::new`. -/
def NodePosition.new (node : Node) (remainder node_start_offset : Int) : NodePosition :=
  ⟨node, remainder, node_start_offset⟩

/-- `NodeLinePosition` from buffer.rs. -/
structure NodeLinePosition where
  node : Node
  node_start_offset : Int
  node_start_line_number : Int
deriving DecidableEq, Repr

/-- `PieceTreeSearchCache` from buffer.rs. -/
structure PieceTreeSearchCache where
  limit : Int
  positions : List NodePosition
  line_positions : List NodeLinePosition
deriving DecidableEq, Repr

/-- `impl Default for PieceTreeSearchCache` (limit 1, empty vectors). -/
def PieceTreeSearchCache.defaultCache : PieceTreeSearchCache := ⟨1, [], []⟩

/-- `PieceTreeSearchCache::get_position`: last entry (first of the reversed
iteration) whose piece range covers the offset. -/
def PieceTreeSearchCache.get_position (c : PieceTreeSearchCache) (offset : Int) :
    Option NodePosition :=
  c.positions.reverse.find?
    (fun p => p.node_start_offset ≤ offset && p.node_start_offset + p.node.piece.len ≥ offset)

/-- `PieceTreeSearchCache::is_limit`. `self.limit as usize` wraps a negative
limit to a huge number, making the comparison false. -/
def PieceTreeSearchCache.is_limit (c : PieceTreeSearchCache) : Bool :=
  if c.limit < 0 then false
  else c.positions.length + c.line_positions.length ≥ c.limit.toNat

/-- `PieceTreeSearchCache::set_position`. `self.positions.remove(0)` panics
when `positions` is empty (modelled as `none`). -/
def PieceTreeSearchCache.set_position (c : PieceTreeSearchCache) (p : NodePosition) :
    Option PieceTreeSearchCache :=
  if c.is_limit then
    match c.positions with
    | [] => none
    | _ :: rest => some { c with positions := rest ++ [p] }
  else
    some { c with positions := c.positions ++ [p] }

/-- `PieceTreeSearchCache::validate`: `retain` keeps an entry only when its
node still has a parent key and its start offset is below the watermark. -/
def PieceTreeSearchCache.validate (c : PieceTreeSearchCache) (offset : Int) :
    PieceTreeSearchCache :=
  { c with
    positions :=
      c.positions.filter (fun p => !(p.node.parent_key.isNone || p.node_start_offset ≥ offset)),
    line_positions :=
      c.line_positions.filter (fun p => !(p.node.parent_key.isNone || p.node_start_offset ≥ offset)) }

/-- `TextBufferCache` from buffer.rs. -/
structure TextBufferCache where
  last_change : BufferCursor
  search : PieceTreeSearchCache
  line_count : Int
  len : Int
deriving DecidableEq, Repr

/-- Rust `#[derive(Default)]` for `TextBufferCache`. -/
def TextBufferCache.defaultCache : TextBufferCache :=
  ⟨BufferCursor.defaultCursor, PieceTreeSearchCache.defaultCache, 0, 0⟩

/-! ### The intrusive tree, modelled as a list in ascending key order. -/

/-- The piece tree: nodes in ascending `total_size` key order (the in-order
traversal of the red-black tree). -/
abbrev Tree := List Node

/-- `RBTree::insert`: descend by key, placing the new node after nodes with
an equal key. -/
def Tree.insertNode : Tree → Node → Tree
  | [], x => [x]
  | n :: rest, x =>
    if x.total_size < n.total_size then x :: n :: rest
    else n :: Tree.insertNode rest x

/-- `RBTree::find` by key. -/
def Tree.findByKey (t : Tree) (key : Int) : Option Node :=
  t.find? (fun n => n.total_size == key)

/-- `CursorMut::remove` after `find_mut(key)`: delete the found node. -/
def Tree.removeByKey : Tree → Int → Tree
  | [], _ => []
  | n :: rest, key =>
    if n.total_size == key then rest else n :: Tree.removeByKey rest key

/-- `CursorMut::replace_with` after `find_mut(key)`: replace the found node. -/
def Tree.replaceByKey : Tree → Int → Node → Tree
  | [], _, _ => []
  | n :: rest, key, x =>
    if n.total_size == key then x :: rest else n :: Tree.replaceByKey rest key x

/-- `TextBuffer` from buffer.rs. -/
structure TextBuffer where
  tree : Tree
  info : TextBufferInfo
  original : Buffer
  changed : List Buffer
  cache : TextBufferCache
deriving DecidableEq, Repr

/-- Rust `#[derive(Default)]` for `TextBuffer` (note: `changed` is the empty
vector here, while `TextBuffer::new` seeds it with one default buffer). -/
def TextBuffer.defaultBuffer : TextBuffer :=
  ⟨[], TextBufferInfo.defaultInfo, Buffer.defaultBuffer, [], TextBufferCache.defaultCache⟩

/-- `TextBuffer::new`. -/
def TextBuffer.new (original : GStr) (default_eol : DefaultEOL) : TextBuffer :=
  let meta := TextBufferInfo.new_with_meta original default_eol
  let text_buffer : TextBuffer :=
    { tree := []
      info := meta.1
      original := Buffer.new original meta.2
      changed := [Buffer.defaultBuffer]
      cache := TextBufferCache.defaultCache }
  let node := Node.from_buffer text_buffer.original
  { text_buffer with tree := Tree.insertNode text_buffer.tree node }

/-- `TextBuffer::get_buffer`: clone of `changed[i]` or of the original buffer.
An out-of-range (or negative, wrapped) index panics, modelled as `none`. -/
def TextBuffer.get_buffer (tb : TextBuffer) (buffer_index : Option Int) : Option Buffer :=
  match buffer_index with
  | some i =>
    if h : 0 ≤ i ∧ i.toNat < tb.changed.length then some (tb.changed.get ⟨i.toNat, h.2⟩)
    else none
  | none => some tb.original

/-- Write-back half of `TextBuffer::get_buffer_mut` (and of
`self.changed[i] = buffer`): store a buffer at the place `buffer_index`
denotes. -/
def TextBuffer.set_buffer (tb : TextBuffer) (buffer_index : Option Int) (b : Buffer) :
    Option TextBuffer :=
  match buffer_index with
  | some i =>
    if 0 ≤ i ∧ i.toNat < tb.changed.length then
      some { tb with changed := tb.changed.set i.toNat b }
    else none
  | none => some { tb with original := b }

/-- Walking loop of `TextBuffer::get_node_position`. The cursor starts at
`front`; `move_prev` from the front makes the cursor null (index `0` with a
pending backward move), ending the loop. The `fuel` bound makes the function
total; with non-negative piece lengths and zero `left_size` fields (the only
node shapes this program builds) `tree.length + 1` steps always suffice. -/
def gnpLoop : Nat → Tree → Nat → Int → Int → Option NodePosition
  | 0, _, _, _, _ => none
  | fuel + 1, tree, idx, offset, node_start_offset =>
    match tree.get? idx with
    | none => none
    | some n =>
      if n.left_size > offset then
        if idx = 0 then none
        else gnpLoop fuel tree (idx - 1) offset node_start_offset
      else if n.total_size ≥ offset then
        some (NodePosition.new n (offset - n.left_size) (node_start_offset + n.left_size))
      else
        gnpLoop fuel tree (idx + 1) (offset - n.total_size)
          (node_start_offset + n.total_size)

/-- `TextBuffer::get_node_position`. The cache lookup at the top constructs a
`NodePosition` as an expression statement and discards it (there is no
`return`), so the walk below always runs; on a hit the walk stores the found
position in the search cache before returning it. A miss at the end of the
walk is the `res.expect(...)` panic. -/
def TextBuffer.get_node_position (tb : TextBuffer) (offset : Int) :
    Option (NodePosition × PieceTreeSearchCache) :=
  let _cached := tb.cache.search.get_position offset
  match gnpLoop (tb.tree.length + 1) tb.tree 0 offset 0 with
  | some position =>
    match tb.cache.search.set_position position with
    | some search => some (position, search)
    | none => none
  | none => none

/-- `TextBuffer::end_with_cr(node)`: looks the node up again by key, then
inspects the last grapheme of the referenced buffer. `none` is the panic of an
out-of-range buffer index. -/
def TextBuffer.end_with_cr (tb : TextBuffer) (node : Node) : Option Bool :=
  match Tree.findByKey tb.tree node.total_size with
  | none => some false
  | some found =>
    if node.piece.line_feed_count = 0 then some false
    else if found.piece.line_feed_count < 1 then some false
    else
      match tb.get_buffer found.piece.buffer_index with
      | some buffer => some (buffer.value.getLast? == some "\r")
      | none => none

/-- One iteration step of `TextBuffer::update_tree_metadata`, fuelled. The
loop guard re-reads `node.parent_key` of the *outer* `node` binding, which the
body never changes (it only shadows it), so with `parent_key = Some _` the
loop never exits; running out of fuel (`none`) models that divergence, and a
failed `find_mut`/`replace_with` panic is also `none`. -/
def utmLoop : Nat → Tree → Node → Int → Int → Option Tree
  | 0, _, _, _, _ => none
  | fuel + 1, tree, node, delta, line_feed_count_delta =>
    match node.parent_key with
    | none => some tree
    | some key =>
      if (Tree.findByKey tree key).isSome then
        let upd :=
          { node with
            left_size := node.left_size + delta,
            left_line_feed_count := node.left_line_feed_count + line_feed_count_delta }
        utmLoop fuel (Tree.replaceByKey tree key upd) node delta line_feed_count_delta
      else none

/-- `TextBuffer::update_tree_metadata`, with the canonical fuel bound. -/
def TextBuffer.update_tree_metadata (tree : Tree) (node : Node)
    (delta line_feed_count_delta : Int) : Option Tree :=
  utmLoop (tree.length + 1) tree node delta line_feed_count_delta

/-- `TextBuffer::adjust_cr_from_next`. Returns the flag, the updated buffer
state and the updated `value` (the Rust code takes `&mut String`). Note
`cursor.as_cursor().move_next()` advances a temporary cursor, so the
mutable cursor stays on the node found by key. -/
def TextBuffer.adjust_cr_from_next (tb : TextBuffer) (node : Node) (value : GStr) :
    Option (Bool × TextBuffer × GStr) :=
  if !(tb.info.should_check_crlf && Node.end_with_cr_from_string value) then
    some (false, tb, value)
  else
    match tb.get_buffer node.piece.buffer_index with
    | none => none
    | some buffer =>
      match Tree.findByKey tb.tree node.total_size with
      | none => some (false, tb, value)
      | some found =>
        match Node.start_with_lf found buffer with
        | none => none
        | some lf =>
          if lf then
            let value := value ++ ["\n"]
            if found.piece.len = 1 then
              some (true, { tb with tree := Tree.removeByKey tb.tree node.total_size }, value)
            else
              let start := BufferCursor.new (found.piece.start.line + 1) 0
              match buffer.get_line_feed_count start found.piece.end_ with
              | none => none
              | some lfc =>
                let node2 :=
                  { found with
                    piece := Piece.new found.piece.buffer_index start found.piece.end_
                      lfc (found.piece.len - 1) }
                let tree2 := Tree.replaceByKey tb.tree node.total_size node2
                match TextBuffer.update_tree_metadata tree2 node2 (-1) (-1) with
                | none => none
                | some tree3 => some (true, { tb with tree := tree3 }, value)
          else some (false, tb, value)

/-- The `hit_crlf` block of `TextBuffer::append` (buffer.rs lines 106-115):
pop the last line start of the referenced buffer and move `last_change` up a
line. `buffer.line_starts[buffer.line_starts.len() - 2]` panics when the
buffer has fewer than two recorded line starts. -/
def TextBuffer.appendHitCrlf (tb : TextBuffer) (node : Node) (start_offset : Int) :
    Option TextBuffer :=
  match tb.get_buffer node.piece.buffer_index with
  | none => none
  | some buffer =>
    if h : 2 ≤ buffer.line_starts.length then
      let prev_start_offset := buffer.line_starts.get ⟨buffer.line_starts.length - 2, by omega⟩
      match tb.set_buffer node.piece.buffer_index
          { buffer with line_starts := buffer.line_starts.dropLast } with
      | none => none
      | some tb2 =>
        let lc := BufferCursor.new (tb2.cache.last_change.line - 1)
          (start_offset - prev_start_offset)
        some { tb2 with cache := { tb2.cache with last_change := lc } }
    else none

/-- `TextBuffer::append`, line by line. The `value` argument may already have
been extended by `adjust_cr_from_next`; a further `"\n"` is pushed when that
call returned `true` (so the newline is appended twice). The shifted local
`line_starts` loses its head to `remove(0)` (panics when empty) and is then
sliced `[1..]` (panics when the remainder is empty); the slice extends both
the referenced changed buffer and — unconditionally — the
`self.original.line_starts` list. The buffer value itself is never extended
with the appended text. Each `match ... | none => none` is a Rust panic
(`expect`, indexing) propagated. -/
def TextBuffer.append (tb : TextBuffer) (node : Node) (value : GStr) : Option TextBuffer :=
  match tb.adjust_cr_from_next node value with
  | none => none
  | some adj =>
    let tb := adj.2.1
    let value := if adj.1 then adj.2.2 ++ ["\n"] else adj.2.2
    let start_offset := node.total_size
    let line_starts := (Buffer.get_line_starts value).map (· + start_offset)
    match (if tb.info.should_check_crlf && Node.start_with_lf_from_string value
           then tb.end_with_cr node else some false) with
    | none => none
    | some hit_crlf =>
      match (if hit_crlf then tb.appendHitCrlf node start_offset else some tb) with
      | none => none
      | some tb =>
        match line_starts with
        | [] => none
        | _ :: line_starts =>
          match line_starts with
          | [] => none
          | _ =>
            let tail := line_starts.drop 1
            match tb.get_buffer node.piece.buffer_index with
            | none => none
            | some buffer =>
              let buffer := { buffer with line_starts := buffer.line_starts ++ tail }
              let tb := { tb with original :=
                { tb.original with line_starts := tb.original.line_starts ++ tail } }
              let end_index : Int := (tb.original.line_starts.length : Int) - 1
              match (if 0 ≤ end_index then tb.original.line_starts.get? end_index.toNat
                     else none) with
              | none => none
              | some lastStart =>
                let end_column : Int := (tb.original.value.length : Int) - lastStart
                let new_end := BufferCursor.new end_index end_column
                let old_line_feed_count := node.piece.line_feed_count
                match buffer.get_line_feed_count node.piece.start new_end with
                | none => none
                | some new_line_feed_count =>
                  let value_len : Int := (value.length : Int)
                  match node.piece.buffer_index with
                  | none => none
                  | some bi =>
                    match tb.set_buffer (some bi) buffer with
                    | none => none
                    | some tb =>
                      let newPiece := Piece.new node.piece.buffer_index node.piece.start
                        new_end new_line_feed_count (node.piece.len + value_len)
                      let node := { node with piece := newPiece }
                      let tb := { tb with cache :=
                        { tb.cache with last_change := new_end } }
                      match TextBuffer.update_tree_metadata tb.tree node value_len
                          (new_line_feed_count - old_line_feed_count) with
                      | none => none
                      | some tree => some { tb with tree := tree }

/-- `TextBuffer::compute_buffer_metadata`: walk the whole tree summing the
cached aggregates, store them, and validate the search cache at the new
length. -/
def TextBuffer.compute_buffer_metadata (tb : TextBuffer) : TextBuffer :=
  let line_feed_count :=
    tb.tree.foldl (fun acc n => acc + n.left_line_feed_count + n.piece.line_feed_count) 0
  let grapheme_len :=
    tb.tree.foldl (fun acc n => acc + n.left_size + n.piece.len) 0
  { tb with cache :=
    { tb.cache with
      line_count := line_feed_count,
      len := grapheme_len,
      search := tb.cache.search.validate grapheme_len } }

/-- `TextBuffer::insert`. Only the empty-tree branch and the append fast path
are implemented in the source; `insert_left`, `insert_middle` and
`insert_right` are commented out, so those branches fall through to the final
`compute_buffer_metadata`. -/
def TextBuffer.insert (tb : TextBuffer) (offset : Int) (value : GStr) :
    Option TextBuffer :=
  if tb.tree.isEmpty then
    -- first insert
    let buffer := Buffer.fromStr value
    let node :=
      { Node.from_buffer buffer with piece :=
        { (Node.from_buffer buffer).piece with
          buffer_index := some (tb.changed.length : Int) } }
    some { tb with
      tree := Tree.insertNode tb.tree node,
      changed := tb.changed ++ [buffer] }
  else
    match tb.get_node_position offset with
    | none => none
    | some (pos, search) =>
      let tb := { tb with cache := { tb.cache with search := search } }
      let node := pos.node
      let node_start_offset := pos.node_start_offset
      if node.piece.buffer_index.isSome
          ∧ node.piece.end_.line = tb.cache.last_change.line
          ∧ node.piece.end_.column = tb.cache.last_change.column
          ∧ node_start_offset + node.piece.len = offset then
        -- modified node
        (tb.append node value).map TextBuffer.compute_buffer_metadata
      else if node_start_offset = offset then
        -- insert_left is commented out in the source
        some tb.compute_buffer_metadata
      else if node_start_offset + node.piece.len > offset then
        -- insert_middle is commented out in the source
        some tb.compute_buffer_metadata
      else
        -- insert_right is commented out in the source
        some tb.compute_buffer_metadata

/-- `TextBuffer::delete` is `todo!("delete")`: it panics unconditionally. -/
def TextBuffer.delete (_tb : TextBuffer) (_offset _count : Int) : Option TextBuffer :=
  none

/-- Accumulating loop of `TextBuffer::get_node_content`. The Rust loop is
`while let Some((i, g)) = graphemes.enumerate().next()`: a fresh `Enumerate`
is built from the borrowed grapheme iterator on every iteration, so `i` is
always `0` while `g` still advances through the buffer. -/
def gncLoop : GStr → Int → Int → GStr → GStr
  | [], _, _, text => text
  | g :: rest, start_offset, end_offset, text =>
    let i : Int := 0
    gncLoop rest start_offset end_offset
      (if start_offset ≤ i ∧ i ≤ end_offset then text ++ [g] else text)

/-- `TextBuffer::get_node_content`: re-find the node by key; a missing node
yields the empty string, a bad buffer index panics (`none`). -/
def TextBuffer.get_node_content (tb : TextBuffer) (node : Node) : Option GStr :=
  match Tree.findByKey tb.tree node.total_size with
  | some found =>
    match tb.get_buffer found.piece.buffer_index with
    | some buffer =>
      let start_offset := buffer.offset found.piece.start
      let end_offset := buffer.offset found.piece.end_
      some (gncLoop buffer.value start_offset end_offset [])
    | none => none
  | none => some []

/-- Traversal loop of `TextBuffer::to_string`. -/
def TextBuffer.to_string_go (tb : TextBuffer) : List Node → GStr → Option GStr
  | [], text => some text
  | n :: rest, text =>
    match tb.get_node_content n with
    | some s => tb.to_string_go rest (text ++ s)
    | none => none

/-- `TextBuffer::to_string`: concatenate the content of every node in tree
order. -/
def TextBuffer.to_string (tb : TextBuffer) : Option GStr :=
  tb.to_string_go tb.tree []

/-! ### Spec-side measuring functions used to state the claims. -/

/-- Number of line terminators in a grapheme-segmented text, counting a CR
immediately followed by LF (whether fused into one cluster or split into two)
as a single terminator. Used to state what the spec calls
"CRLF-as-one-terminator counting". -/
def specLineTerminatorCount : GStr → Nat
  | [] => 0
  | "\r" :: "\n" :: rest => 1 + specLineTerminatorCount rest
  | "\r\n" :: rest => 1 + specLineTerminatorCount rest
  | "\r" :: rest => 1 + specLineTerminatorCount rest
  | "\n" :: rest => 1 + specLineTerminatorCount rest
  | _ :: rest => specLineTerminatorCount rest

/-- Total document length of a tree: the sum of the piece lengths in order.
Used to state the claims about `get_node_position`. -/
def Tree.totalLen : Tree → Int
  | [] => 0
  | n :: rest => n.piece.len + Tree.totalLen rest

/-! ### Helper lemmas. -/

/-- The scan loop of `new_with_meta` runs on a drained iterator, so the
returned line starts are always `[0]`. -/
theorem new_with_meta_snd (S : GStr) (eol : DefaultEOL) :
    (TextBufferInfo.new_with_meta S eol).2 = [0] := by
  simp [TextBufferInfo.new_with_meta, List.drop_length, nwmLoop]

/-- When the start offset is non-positive and the end offset non-negative,
the content loop keeps every grapheme. -/
theorem gncLoop_append_all (gs : GStr) (so eo : Int) (acc : GStr)
    (hso : so ≤ 0) (heo : 0 ≤ eo) : gncLoop gs so eo acc = acc ++ gs := by
  induction gs generalizing acc with
  | nil => simp [gncLoop]
  | cons g rest ih =>
    rw [gncLoop]
    simp only [if_pos (And.intro hso heo)]
    rw [ih (acc ++ [g])]
    simp

/-- The tree built by `TextBuffer::new`. -/
theorem new_tree (S : GStr) (eol : DefaultEOL) :
    (TextBuffer.new S eol).tree = [Node.from_buffer (Buffer.new S [0])] := by
  simp [TextBuffer.new, new_with_meta_snd, Tree.insertNode]

/-- The original buffer built by `TextBuffer::new`. -/
theorem new_original (S : GStr) (eol : DefaultEOL) :
    (TextBuffer.new S eol).original = Buffer.new S [0] := by
  simp [TextBuffer.new, new_with_meta_snd]

/-! ### The claims. -/

/-- C2: for every string S, constructing a document from initial payload S
and then calling `to_text()` returns S exactly, with no edits in between. -/
theorem C2_round_trip (S : GStr) (eol : DefaultEOL) :
    (TextBuffer.new S eol).to_string = some S := by
  have htree := new_tree S eol
  have horig := new_original S eol
  have hcontent :
      (TextBuffer.new S eol).get_node_content (Node.from_buffer (Buffer.new S [0]))
        = some S := by
    have hfind :
        Tree.findByKey (TextBuffer.new S eol).tree
          (Node.from_buffer (Buffer.new S [0])).total_size
          = some (Node.from_buffer (Buffer.new S [0])) := by
      rw [htree]
      simp [Tree.findByKey]
    have hbi : (Node.from_buffer (Buffer.new S [0])).piece.buffer_index = none := rfl
    have hbuf : (TextBuffer.new S eol).get_buffer none = some (Buffer.new S [0]) := by
      rw [TextBuffer.get_buffer, horig]
    have hstart :
        (Buffer.new S [0]).offset (Node.from_buffer (Buffer.new S [0])).piece.start = 0 := rfl
    have hend :
        (Buffer.new S [0]).offset (Node.from_buffer (Buffer.new S [0])).piece.end_
          = (S.length : Int) := by
      show (if (0:Int) ≤ _ then _ else _) + _ = _
      norm_num [Node.from_buffer, Node.new, Piece.new, Buffer.new, BufferCursor.new]
    simp only [TextBuffer.get_node_content, hfind, hbi, hbuf, hstart, hend]
    rw [gncLoop_append_all (Buffer.new S [0]).value 0 (S.length : Int) [] le_rfl
      (Int.ofNat_nonneg _)]
    simp [Buffer.new]
  rw [TextBuffer.to_string, htree]
  simp [TextBuffer.to_string_go, hcontent]

/-- C1: the claim asserts that `to_text()` after `insert(o, T)` equals
`prefix(S,o) + T + suffix(S,o)`. Evaluating the code on the document "ab"
with `insert(0, "X")` (a valid offset) shows the edit is silently dropped:
the branch that should insert before the node (`insert_left`) is commented
out, so the text stays "ab" instead of becoming "Xab". -/
theorem C1_insert_read_consistency_fails :
    ((TextBuffer.new ["a", "b"] DefaultEOL.LF).insert 0 ["X"]).bind TextBuffer.to_string
      = some ["a", "b"]
    ∧ (["a", "b"] : GStr)
      ≠ List.take 0 ["a", "b"] ++ ["X"] ++ List.drop 0 ["a", "b"] := by
  decide

/-- C4: the claim asserts the original buffer is never mutated after
construction. Evaluating the code on a default-constructed document with the
edit sequence `insert(0, "")`, `insert(0, "a\nb\nc")` (the second insert takes
the append fast path) shows `append` extends `self.original.line_starts`
even though the edit targets changed buffer 0: the original line-start list
goes from `[]` at construction to `[4]`. -/
theorem C4_original_buffer_mutated :
    ((TextBuffer.defaultBuffer.insert 0 []).bind
        (fun tb => tb.insert 0 ["a", "\n", "b", "\n", "c"])).map
      (fun tb => tb.original.line_starts) = some [4]
    ∧ TextBuffer.defaultBuffer.original.line_starts = [] := by
  decide

/-- C5: the claim asserts `line_count()` equals terminators in `to_text()`
plus one. After `insert(0, "a\nb")` followed by `insert(3, "x")` on a
default-constructed document, the text is "a\nb" (one LF terminator, so the
claim requires 2), but the cached line count is 1: `compute_buffer_metadata`
stores the raw line-feed sum with no `+ 1`. -/
theorem C5_line_count_off_by_one :
    ((TextBuffer.defaultBuffer.insert 0 ["a", "\n", "b"]).bind
        (fun tb => tb.insert 3 ["x"])).map (fun tb => tb.cache.line_count) = some 1
    ∧ ((TextBuffer.defaultBuffer.insert 0 ["a", "\n", "b"]).bind
        (fun tb => tb.insert 3 ["x"])).bind TextBuffer.to_string
      = some ["a", "\n", "b"]
    ∧ specLineTerminatorCount ["a", "\n", "b"] + 1 = 2 := by
  refine ⟨by decide, by decide, by decide⟩

/-- C6: the claim asserts the line-index computation records, after every
terminator, the offset right past it. Evaluating both scanners refutes this:
`Buffer::get_line_starts` on "x\ry\rz" records only `[0, 2]` (the `nth(i+1)`
call after a CR swallows the following graphemes, losing the second CR, which
the claim requires at offset 4); and `TextBufferInfo::new_with_meta` on
"a\nb" records `[0]` (its `count()` call drains the iterator before the scan
loop runs, so no terminator is ever recorded although the claim requires
`[0, 2]`). -/
theorem C6_line_index_scanners_drop_terminators :
    Buffer.get_line_starts ["x", "\r", "y", "\r", "z"] = [0, 2]
    ∧ (TextBufferInfo.new_with_meta ["a", "\n", "b"] DefaultEOL.LF).2 = [0] := by
  decide

/-- C7: the claim asserts every boundary error is detected before any
mutation. Evaluating the code on an empty default-constructed document
(length 0, so only offset 0 is valid) with `insert(5, "x")` shows no check
exists: the insert succeeds and the document text becomes "x". -/
theorem C7_out_of_range_insert_not_rejected :
    TextBuffer.defaultBuffer.to_string = some []
    ∧ (TextBuffer.defaultBuffer.insert 5 ["x"]).bind TextBuffer.to_string
      = some ["x"] := by
  decide

/-- C8: the claim asserts `insert(offset, "")` is a complete no-op. Evaluating
the code on a default-constructed document shows `insert(0, "")` has no
empty-text guard: it creates a zero-length node in the tree and pushes a new
changed buffer, although the document text was and stays empty. -/
theorem C8_empty_insert_not_a_noop :
    (TextBuffer.defaultBuffer.insert 0 []).map
      (fun tb => (tb.tree.length, tb.changed.length)) = some (1, 1)
    ∧ TextBuffer.defaultBuffer.tree.length = 0
    ∧ TextBuffer.defaultBuffer.changed.length = 0 := by
  decide

/-- `set_position` succeeds whenever a full cache still has at least one
position entry; the only panic is `positions.remove(0)` on an empty vector,
which requires the dead-code path `set_line_position` to have filled
`line_positions` first. -/
theorem set_position_isSome (c : PieceTreeSearchCache) (p : NodePosition)
    (h : c.is_limit = true → c.positions ≠ []) :
    (c.set_position p).isSome = true := by
  unfold PieceTreeSearchCache.set_position
  cases hl : c.is_limit with
  | false => simp
  | true =>
    cases hp : c.positions with
    | nil => exact absurd hp (h hl)
    | cons q rest => simp

/-- The node position computed by `get_node_position` is exactly the raw tree
walk; the search cache is read only into a discarded expression. -/
theorem get_node_position_fst (tb : TextBuffer) (offset : Int)
    (h : tb.cache.search.is_limit = true → tb.cache.search.positions ≠ []) :
    (tb.get_node_position offset).map Prod.fst
      = gnpLoop (tb.tree.length + 1) tb.tree 0 offset 0 := by
  unfold TextBuffer.get_node_position
  cases hw : gnpLoop (tb.tree.length + 1) tb.tree 0 offset 0 with
  | none => simp
  | some pos =>
    obtain ⟨sc, hsc⟩ := Option.isSome_iff_exists.mp (set_position_isSome tb.cache.search pos h)
    simp [hsc]

/-- C9: the search cache is a pure performance optimization: the node
position returned by the offset lookup is the same for any two search-cache
states and equals the raw (cache-disabled) tree walk. The hypotheses exclude
cache states the program never constructs (`line_positions` can only be
filled by `set_line_position`, which no code calls; a full cache therefore
always has a position entry and `set_position` cannot panic). Indeed the
cache-hit branch of `get_node_position` builds a `NodePosition` and discards
it, so the lookup result never depends on the cache contents. -/
theorem C9_search_cache_pure_optimization (tb : TextBuffer)
    (c1 c2 : PieceTreeSearchCache) (offset : Int)
    (h1 : c1.is_limit = true → c1.positions ≠ [])
    (h2 : c2.is_limit = true → c2.positions ≠ []) :
    (({ tb with cache := { tb.cache with search := c1 } }).get_node_position offset).map
        Prod.fst
      = (({ tb with cache := { tb.cache with search := c2 } }).get_node_position offset).map
        Prod.fst
    ∧ (({ tb with cache := { tb.cache with search := c1 } }).get_node_position offset).map
        Prod.fst
      = gnpLoop (tb.tree.length + 1) tb.tree 0 offset 0 := by
  have e1 := get_node_position_fst { tb with cache := { tb.cache with search := c1 } } offset h1
  have e2 := get_node_position_fst { tb with cache := { tb.cache with search := c2 } } offset h2
  exact ⟨e1.trans e2.symm, e1⟩

/-- Witness for C9 at a populated cache, the empty cache and a concrete
document. -/
theorem C9_witness :
    ((⟨1, [NodePosition.new Node.defaultNode 0 0], []⟩ :
        PieceTreeSearchCache).is_limit = true →
      (⟨1, [NodePosition.new Node.defaultNode 0 0], []⟩ :
        PieceTreeSearchCache).positions ≠ [])
    ∧ ((PieceTreeSearchCache.defaultCache.is_limit = true →
        PieceTreeSearchCache.defaultCache.positions ≠ []))
    ∧ ((({ TextBuffer.new ["a", "b"] DefaultEOL.LF with cache :=
            { (TextBuffer.new ["a", "b"] DefaultEOL.LF).cache with search :=
              ⟨1, [NodePosition.new Node.defaultNode 0 0], []⟩ } }).get_node_position 1).map
          Prod.fst
        = (({ TextBuffer.new ["a", "b"] DefaultEOL.LF with cache :=
            { (TextBuffer.new ["a", "b"] DefaultEOL.LF).cache with search :=
              PieceTreeSearchCache.defaultCache } }).get_node_position 1).map Prod.fst) := by
  refine ⟨by decide, by decide, ?_⟩
  exact (C9_search_cache_pure_optimization (TextBuffer.new ["a", "b"] DefaultEOL.LF)
    ⟨1, [NodePosition.new Node.defaultNode 0 0], []⟩ PieceTreeSearchCache.defaultCache 1
    (by decide) (by decide)).1

/-! ### Characterising the `get_node_position` walk. -/

/-- Forward-only restatement of the walking loop: with the node shapes this
program builds (`left_size = 0` everywhere) and a non-negative offset, the
`move_prev` branch of `gnpLoop` is unreachable and the walk only moves
forward through the node list. -/
def gnpSpec : Tree → Int → Int → Option NodePosition
  | [], _, _ => none
  | n :: rest, offset, node_start_offset =>
    if n.total_size ≥ offset then
      some (NodePosition.new n (offset - n.left_size) (node_start_offset + n.left_size))
    else
      gnpSpec rest (offset - n.total_size) (node_start_offset + n.total_size)

/-- Piece lengths of a well-formed tree are non-negative, so the total length
is as well. -/
theorem totalLen_nonneg (t : Tree) (hwf : ∀ n ∈ t, n.left_size = 0 ∧ 0 ≤ n.piece.len) :
    0 ≤ Tree.totalLen t := by
  induction t with
  | nil => simp [Tree.totalLen]
  | cons n rest ih =>
    have hn := hwf n (List.mem_cons_self n rest)
    have hr := ih (fun m hm => hwf m (List.mem_cons_of_mem n hm))
    rw [Tree.totalLen]
    omega

/-- On a well-formed tree and a non-negative offset, the fuelled cursor walk
agrees with the forward-only walk over the remaining suffix. -/
theorem gnpLoop_eq_gnpSpec (tree : Tree)
    (hwf : ∀ n ∈ tree, n.left_size = 0 ∧ 0 ≤ n.piece.len) :
    ∀ fuel idx offset node_start_offset, 0 ≤ offset → tree.length < fuel + idx →
      gnpLoop fuel tree idx offset node_start_offset
        = gnpSpec (tree.drop idx) offset node_start_offset := by
  intro fuel
  induction fuel with
  | zero =>
    intro idx offset nso h0 hlen
    have hdrop : tree.drop idx = [] := List.drop_eq_nil_of_le (by omega)
    rw [hdrop, gnpLoop, gnpSpec]
  | succ fuel ih =>
    intro idx offset nso h0 hlen
    rw [gnpLoop]
    cases hget : tree.get? idx with
    | none =>
      have hge : tree.length ≤ idx := List.get?_eq_none.mp hget
      rw [List.drop_eq_nil_of_le hge, gnpSpec]
    | some n =>
      have hidx : idx < tree.length := by
        by_contra hge
        rw [List.get?_eq_none.mpr (by omega)] at hget
        exact Option.noConfusion hget
      have hmem : n ∈ tree := List.get?_mem hget
      have hdrop : tree.drop idx = n :: tree.drop (idx + 1) := by
        rw [List.drop_eq_getElem_cons hidx]
        congr 1
        have := List.get?_eq_get hidx
        rw [this] at hget
        exact Option.some.inj hget
      obtain ⟨hleft, hlen0⟩ := hwf n hmem
      rw [hdrop, gnpSpec]
      have hnotprev : ¬ n.left_size > offset := by omega
      simp only [if_neg hnotprev]
      by_cases hhit : n.total_size ≥ offset
      · rw [if_pos hhit, if_pos hhit]
      · rw [if_neg hhit, if_neg hhit]
        have htot : 0 ≤ offset - n.total_size := by
          unfold Node.total_size at hhit ⊢
          omega
        exact ih (idx + 1) (offset - n.total_size) (nso + n.total_size) htot (by omega)

/-- The forward walk succeeds exactly on a non-empty suffix whose total
length is at least the offset. -/
theorem gnpSpec_isSome_iff (t : Tree) (hwf : ∀ n ∈ t, n.left_size = 0 ∧ 0 ≤ n.piece.len) :
    ∀ offset nso, 0 ≤ offset →
      ((gnpSpec t offset nso).isSome = true ↔ t ≠ [] ∧ offset ≤ Tree.totalLen t) := by
  induction t with
  | nil => intro offset nso h0; simp [gnpSpec]
  | cons n rest ih =>
    intro offset nso h0
    obtain ⟨hleft, hlen0⟩ := hwf n (List.mem_cons_self n rest)
    have hwfr : ∀ m ∈ rest, m.left_size = 0 ∧ 0 ≤ m.piece.len :=
      fun m hm => hwf m (List.mem_cons_of_mem n hm)
    have htotr := totalLen_nonneg rest hwfr
    rw [gnpSpec]
    by_cases hhit : n.total_size ≥ offset
    · rw [if_pos hhit]
      unfold Node.total_size at hhit
      simp only [Option.isSome_some, true_iff]
      refine ⟨by simp, ?_⟩
      rw [Tree.totalLen]
      omega
    · rw [if_neg hhit]
      unfold Node.total_size at hhit
      have h0r : 0 ≤ offset - n.total_size := by unfold Node.total_size; omega
      rw [ih hwfr (offset - n.total_size) (nso + n.total_size) h0r]
      unfold Node.total_size
      rw [Tree.totalLen]
      constructor
      · rintro ⟨hne, hle⟩
        exact ⟨by simp, by omega⟩
      · rintro ⟨-, hle⟩
        refine ⟨?_, by omega⟩
        rintro rfl
        rw [Tree.totalLen] at hle
        omega

/-- Every successful forward walk lands on a tree node whose range covers the
query offset, with the remainder measured from the node start. -/
theorem gnpSpec_props (t : Tree) (hwf : ∀ n ∈ t, n.left_size = 0 ∧ 0 ≤ n.piece.len) :
    ∀ offset nso pos, 0 ≤ offset → gnpSpec t offset nso = some pos →
      pos.node ∈ t
      ∧ pos.node_start_offset ≤ offset + nso
      ∧ offset + nso ≤ pos.node_start_offset + pos.node.piece.len
      ∧ pos.remainder = (offset + nso) - pos.node_start_offset := by
  induction t with
  | nil => intro offset nso pos h0 h; rw [gnpSpec] at h; exact Option.noConfusion h
  | cons n rest ih =>
    intro offset nso pos h0 h
    obtain ⟨hleft, hlen0⟩ := hwf n (List.mem_cons_self n rest)
    have hwfr : ∀ m ∈ rest, m.left_size = 0 ∧ 0 ≤ m.piece.len :=
      fun m hm => hwf m (List.mem_cons_of_mem n hm)
    rw [gnpSpec] at h
    by_cases hhit : n.total_size ≥ offset
    · rw [if_pos hhit] at h
      cases h
      unfold Node.total_size at hhit
      refine ⟨List.mem_cons_self n rest, ?_, ?_, ?_⟩ <;>
        simp [NodePosition.new] <;> omega
    · rw [if_neg hhit] at h
      unfold Node.total_size at hhit
      have h0r : 0 ≤ offset - n.total_size := by unfold Node.total_size; omega
      obtain ⟨hmem, hlb, hub, hrem⟩ := ih hwfr (offset - n.total_size) (nso + n.total_size) pos h0r h
      unfold Node.total_size at hlb hub hrem
      refine ⟨List.mem_cons_of_mem n hmem, by omega, by omega, by omega⟩

/-- C3: on any tree whose nodes have the only shape this program constructs
(`left_size = 0`, non-negative piece length) and whose search cache can still
accept an entry (see C9), `get_node_position` succeeds for every offset `o`
with `0 ≤ o ≤ total length` on a non-empty tree, returning a tree node with
`node_start_offset ≤ o ≤ node_start_offset + piece.len` and
`remainder = o - node_start_offset`; and it fails (panics) exactly when the
tree is empty or the offset exceeds the total length. -/
theorem C3_get_node_position_characterization (tb : TextBuffer) (offset : Int)
    (hwf : ∀ n ∈ tb.tree, n.left_size = 0 ∧ 0 ≤ n.piece.len)
    (hcache : tb.cache.search.is_limit = true → tb.cache.search.positions ≠ [])
    (h0 : 0 ≤ offset) :
    (tb.tree ≠ [] ∧ offset ≤ Tree.totalLen tb.tree →
      ∃ pos sc, tb.get_node_position offset = some (pos, sc)
        ∧ pos.node ∈ tb.tree
        ∧ pos.node_start_offset ≤ offset
        ∧ offset ≤ pos.node_start_offset + pos.node.piece.len
        ∧ pos.remainder = offset - pos.node_start_offset)
    ∧ (tb.get_node_position offset = none
        ↔ tb.tree = [] ∨ Tree.totalLen tb.tree < offset) := by
  have heq : gnpLoop (tb.tree.length + 1) tb.tree 0 offset 0 = gnpSpec tb.tree offset 0 := by
    have := gnpLoop_eq_gnpSpec tb.tree hwf (tb.tree.length + 1) 0 offset 0 h0 (by omega)
    simpa using this
  have hfst := get_node_position_fst tb offset hcache
  constructor
  · rintro ⟨hne, hle⟩
    have hsome : (gnpSpec tb.tree offset 0).isSome = true :=
      (gnpSpec_isSome_iff tb.tree hwf offset 0 h0).mpr ⟨hne, hle⟩
    obtain ⟨pos, hpos⟩ := Option.isSome_iff_exists.mp hsome
    obtain ⟨hmem, hlb, hub, hrem⟩ := gnpSpec_props tb.tree hwf offset 0 pos h0 hpos
    have hpfst : (tb.get_node_position offset).map Prod.fst = some pos := by
      rw [hfst, heq, hpos]
    obtain ⟨pr, hps, hfsteq⟩ := Option.map_eq_some'.mp hpfst
    refine ⟨pr.1, pr.2, by rw [hps], ?_, ?_, ?_, ?_⟩ <;> rw [hfsteq]
    · exact hmem
    · omega
    · omega
    · omega
  · constructor
    · intro hnone
      have : (gnpSpec tb.tree offset 0).isSome = false := by
        have : (tb.get_node_position offset).map Prod.fst = none := by rw [hnone]; rfl
        rw [hfst, heq] at this
        simp [this]
      by_contra hcon
      push_neg at hcon
      have h1 : tb.tree ≠ [] := hcon.1
      have h2 : offset ≤ Tree.totalLen tb.tree := by
        have := hcon.2
        omega
      rw [(gnpSpec_isSome_iff tb.tree hwf offset 0 h0).mpr ⟨h1, h2⟩] at this
      exact Bool.noConfusion this
    · intro hor
      have hnone : gnpSpec tb.tree offset 0 = none := by
        cases hsp : gnpSpec tb.tree offset 0 with
        | none => rfl
        | some pos =>
          have : (gnpSpec tb.tree offset 0).isSome = true := by rw [hsp]; rfl
          obtain ⟨hne, hle⟩ := (gnpSpec_isSome_iff tb.tree hwf offset 0 h0).mp this
          rcases hor with hor | hor
          · exact absurd hor hne
          · omega
      cases hgnp : tb.get_node_position offset with
      | none => rfl
      | some pr =>
        have : (tb.get_node_position offset).map Prod.fst = some pr.1 := by rw [hgnp]; rfl
        rw [hfst, heq, hnone] at this
        exact Option.noConfusion this

/-- Witness for C3 at the two-grapheme document "ab" and offset 1. -/
theorem C3_witness :
    (∀ n ∈ (TextBuffer.new ["a", "b"] DefaultEOL.LF).tree,
        n.left_size = 0 ∧ 0 ≤ n.piece.len)
    ∧ (0:Int) ≤ 1
    ∧ ((TextBuffer.new ["a", "b"] DefaultEOL.LF).tree ≠ []
        ∧ 1 ≤ Tree.totalLen (TextBuffer.new ["a", "b"] DefaultEOL.LF).tree →
       ∃ pos sc,
         (TextBuffer.new ["a", "b"] DefaultEOL.LF).get_node_position 1 = some (pos, sc)
         ∧ pos.node ∈ (TextBuffer.new ["a", "b"] DefaultEOL.LF).tree
         ∧ pos.node_start_offset ≤ 1
         ∧ 1 ≤ pos.node_start_offset + pos.node.piece.len
         ∧ pos.remainder = 1 - pos.node_start_offset) := by
  refine ⟨by decide, by decide, ?_⟩
  exact (C3_get_node_position_characterization (TextBuffer.new ["a", "b"] DefaultEOL.LF) 1
    (by decide) (by decide) (by decide)).1

/-! ### C10: reachable buffer states and termination of the metadata walk. -/

theorem mem_insertNode {t : Tree} {x n : Node} (h : n ∈ Tree.insertNode t x) :
    n ∈ t ∨ n = x := by
  induction t with
  | nil =>
    rw [Tree.insertNode] at h
    exact Or.inr (List.mem_singleton.mp h)
  | cons m rest ih =>
    rw [Tree.insertNode] at h
    split at h
    · rcases List.mem_cons.mp h with h | h
      · exact Or.inr h
      · exact Or.inl h
    · rcases List.mem_cons.mp h with h | h
      · exact Or.inl (List.mem_cons.mpr (Or.inl h))
      · rcases ih h with h | h
        · exact Or.inl (List.mem_cons_of_mem m h)
        · exact Or.inr h

theorem mem_removeByKey {t : Tree} {k : Int} {n : Node}
    (h : n ∈ Tree.removeByKey t k) : n ∈ t := by
  induction t with
  | nil => rw [Tree.removeByKey] at h; exact h
  | cons m rest ih =>
    rw [Tree.removeByKey] at h
    split at h
    · exact List.mem_cons_of_mem m h
    · rcases List.mem_cons.mp h with h | h
      · exact List.mem_cons.mpr (Or.inl h)
      · exact List.mem_cons_of_mem m (ih h)

theorem mem_replaceByKey {t : Tree} {k : Int} {x n : Node}
    (h : n ∈ Tree.replaceByKey t k x) : n ∈ t ∨ n = x := by
  induction t with
  | nil => simp [Tree.replaceByKey] at h
  | cons m rest ih =>
    rw [Tree.replaceByKey] at h
    split at h
    · rcases List.mem_cons.mp h with h | h
      · exact Or.inr h
      · exact Or.inl (List.mem_cons_of_mem m h)
    · rcases List.mem_cons.mp h with h | h
      · exact Or.inl (List.mem_cons.mpr (Or.inl h))
      · rcases ih h with h | h
        · exact Or.inl (List.mem_cons_of_mem m h)
        · exact Or.inr h

theorem findByKey_mem {t : Tree} {k : Int} {n : Node}
    (h : Tree.findByKey t k = some n) : n ∈ t :=
  List.mem_of_find?_eq_some h

/-- If the metadata walk returns at all, the node had no parent key and the
tree is unchanged: with a parent key present the guard never becomes false
(the body only shadows `node`), so the loop burns all its fuel. -/
theorem utmLoop_some : ∀ (fuel : Nat) (t : Tree) (n : Node) (d l : Int) (t' : Tree),
    utmLoop fuel t n d l = some t' → n.parent_key = none ∧ t' = t := by
  intro fuel
  induction fuel with
  | zero => intro t n d l t' h; exact Option.noConfusion h
  | succ fuel ih =>
    intro t n d l t' h
    rw [utmLoop] at h
    cases hp : n.parent_key with
    | none =>
      simp only [hp] at h
      exact ⟨rfl, (Option.some.inj h).symm⟩
    | some key =>
      simp only [hp] at h
      split at h
      · obtain ⟨hnone, -⟩ := ih _ n d l t' h
        rw [hp] at hnone
        exact Option.noConfusion hnone
      · exact Option.noConfusion h

/-- A node without a parent key makes the walk stop in its first iteration,
for any positive fuel. -/
theorem utmLoop_parent_none {fuel : Nat} (hf : 1 ≤ fuel) (t : Tree) (n : Node)
    (d l : Int) (h : n.parent_key = none) : utmLoop fuel t n d l = some t := by
  cases fuel with
  | zero => omega
  | succ f => rw [utmLoop, h]

theorem update_tree_metadata_some {t : Tree} {n : Node} {d l : Int} {t' : Tree}
    (h : TextBuffer.update_tree_metadata t n d l = some t') :
    n.parent_key = none ∧ t' = t :=
  utmLoop_some _ t n d l t' h

theorem set_buffer_tree {tb : TextBuffer} {bi : Option Int} {b : Buffer}
    {tb' : TextBuffer} (h : tb.set_buffer bi b = some tb') : tb'.tree = tb.tree := by
  unfold TextBuffer.set_buffer at h
  split at h
  · split at h
    · cases h; rfl
    · exact Option.noConfusion h
  · cases h; rfl

/-- `adjust_cr_from_next` only removes a node or replaces one by a copy whose
piece shrank, so the no-parent-key invariant survives it. -/
theorem adjust_preserves_inv {tb : TextBuffer} {node : Node} {v : GStr}
    {res : Bool × TextBuffer × GStr}
    (h : tb.adjust_cr_from_next node v = some res)
    (hinv : ∀ n ∈ tb.tree, n.parent_key = none) :
    ∀ n ∈ res.2.1.tree, n.parent_key = none := by
  unfold TextBuffer.adjust_cr_from_next at h
  split at h
  · cases h; exact hinv
  · split at h
    · exact Option.noConfusion h
    · rename_i buffer hbuf
      split at h
      · cases h; exact hinv
      · rename_i found hfind
        split at h
        · exact Option.noConfusion h
        · rename_i lf hlf
          split at h
          · split at h
            · cases h
              intro n hn
              exact hinv n (mem_removeByKey hn)
            · simp only [] at h
              split at h
              · exact Option.noConfusion h
              · rename_i lfc hgfc
                split at h
                · exact Option.noConfusion h
                · rename_i tree3 hutm
                  cases h
                  obtain ⟨-, htree3⟩ := update_tree_metadata_some hutm
                  intro n hn
                  rw [htree3] at hn
                  rcases mem_replaceByKey hn with hn | hn
                  · exact hinv n hn
                  · rw [hn]
                    exact hinv found (findByKey_mem hfind)
          · cases h; exact hinv

theorem appendHitCrlf_tree {tb : TextBuffer} {node : Node} {so : Int}
    {tb' : TextBuffer} (h : tb.appendHitCrlf node so = some tb') :
    tb'.tree = tb.tree := by
  unfold TextBuffer.appendHitCrlf at h
  split at h
  · exact Option.noConfusion h
  · split at h
    · simp only [] at h
      split at h
      · exact Option.noConfusion h
      · rename_i tbs hset
        cases h
        exact (set_buffer_tree hset : tbs.tree = _)
    · exact Option.noConfusion h

theorem append_preserves_inv {tb : TextBuffer} {node : Node} {v : GStr}
    {tb2 : TextBuffer}
    (h : tb.append node v = some tb2)
    (hinv : ∀ n ∈ tb.tree, n.parent_key = none) :
    ∀ n ∈ tb2.tree, n.parent_key = none := by
  unfold TextBuffer.append at h
  split at h
  · exact Option.noConfusion h
  · rename_i adj hadj
    have hadj_inv : ∀ n ∈ adj.2.1.tree, n.parent_key = none :=
      adjust_preserves_inv hadj hinv
    simp only [] at h
    split at h
    · exact Option.noConfusion h
    · rename_i hit_crlf hhit
      split at h
      · exact Option.noConfusion h
      · rename_i tbh hhitstep
        have htbh : tbh.tree = adj.2.1.tree := by
          split at hhitstep
          · exact appendHitCrlf_tree hhitstep
          · cases hhitstep; rfl
        split at h
        · exact Option.noConfusion h
        · split at h
          · exact Option.noConfusion h
          · split at h
            · exact Option.noConfusion h
            · rename_i buffer hbuf
              split at h
              · exact Option.noConfusion h
              · rename_i lastStart hlast
                split at h
                · exact Option.noConfusion h
                · rename_i nlfc hgfc
                  split at h
                  · exact Option.noConfusion h
                  · rename_i bi hbi
                    split at h
                    · exact Option.noConfusion h
                    · rename_i tbs hset
                      split at h
                      · exact Option.noConfusion h
                      · rename_i tree hutm
                        cases h
                        obtain ⟨-, htree⟩ := update_tree_metadata_some hutm
                        intro n hn
                        simp only [htree] at hn
                        rw [set_buffer_tree hset] at hn
                        simp only [htbh] at hn
                        exact hadj_inv n hn


/-- Both implemented branches of `insert` (first insert into an empty tree,
append fast path) and the commented-out stub branches keep every tree node
free of a parent key. -/
theorem insert_preserves_inv {tb : TextBuffer} {offset : Int} {v : GStr}
    {tb' : TextBuffer}
    (h : tb.insert offset v = some tb')
    (hinv : ∀ n ∈ tb.tree, n.parent_key = none) :
    ∀ n ∈ tb'.tree, n.parent_key = none := by
  unfold TextBuffer.insert at h
  split at h
  · cases h
    intro n hn
    rcases mem_insertNode hn with hn | hn
    · exact hinv n hn
    · rw [hn]; rfl
  · split at h
    · exact Option.noConfusion h
    · rename_i pr pos search hgnp
      simp only [] at h
      split at h
      · rw [Option.map_eq_some'] at h
        obtain ⟨tb2, happ, hcomp⟩ := h
        intro n hn
        have hn2 : n ∈ tb2.tree := by
          have heq : tb'.tree = tb2.tree := by
            rw [← hcomp]
            rfl
          rw [heq] at hn
          exact hn
        exact append_preserves_inv happ (fun m hm => hinv m hm) n hn2
      · split at h
        · cases h; intro n hn; exact hinv n hn
        · split at h
          · cases h; intro n hn; exact hinv n hn
          · cases h; intro n hn; exact hinv n hn

/-- The buffer states reachable through the public constructors and `insert`
(`delete` never returns and so produces no state). -/
inductive Reachable : TextBuffer → Prop where
  | new_ (s : GStr) (eol : DefaultEOL) : Reachable (TextBuffer.new s eol)
  | default_ : Reachable TextBuffer.defaultBuffer
  | insert_ {tb tb' : TextBuffer} (offset : Int) (value : GStr) :
      Reachable tb → tb.insert offset value = some tb' → Reachable tb'

/-- No code path ever stores a parent key: every node of every reachable
buffer state has `parent_key = None`. -/
theorem reachable_parent_none {tb : TextBuffer} (h : Reachable tb) :
    ∀ n ∈ tb.tree, n.parent_key = none := by
  induction h with
  | new_ s eol =>
    rw [new_tree]
    intro n hn
    rw [List.mem_singleton.mp hn]
    rfl
  | default_ => intro n hn; exact absurd hn (List.not_mem_nil n)
  | insert_ offset value hre hins ih => exact insert_preserves_inv hins ih

/-- C10: `update_tree_metadata` terminates for every node it can be called
with. All nodes in reachable buffer states have `parent_key = None` (nothing
in the code ever sets it), so the ancestor-walk loop — whose guard re-reads
the unchanged `node.parent_key` — exits after zero iterations: one unit of
fuel suffices and the tree is returned unchanged. -/
theorem C10_update_tree_metadata_terminates {tb : TextBuffer} (hre : Reachable tb)
    {n : Node} (hn : n ∈ tb.tree) (delta line_feed_count_delta : Int)
    {fuel : Nat} (hf : 1 ≤ fuel) :
    n.parent_key = none
    ∧ utmLoop fuel tb.tree n delta line_feed_count_delta = some tb.tree := by
  have hp := reachable_parent_none hre n hn
  exact ⟨hp, utmLoop_parent_none hf tb.tree n delta line_feed_count_delta hp⟩

/-- Witness for C10 at a freshly loaded one-grapheme document and its single
tree node. -/
theorem C10_witness :
    ((TextBuffer.new ["a"] DefaultEOL.LF).tree.getD 0 Node.defaultNode
        ∈ (TextBuffer.new ["a"] DefaultEOL.LF).tree)
    ∧ (1 ≤ 1)
    ∧ ((TextBuffer.new ["a"] DefaultEOL.LF).tree.getD 0 Node.defaultNode).parent_key = none
    ∧ utmLoop 1 (TextBuffer.new ["a"] DefaultEOL.LF).tree
        ((TextBuffer.new ["a"] DefaultEOL.LF).tree.getD 0 Node.defaultNode) 2 3
      = some (TextBuffer.new ["a"] DefaultEOL.LF).tree := by
  have h := @C10_update_tree_metadata_terminates (TextBuffer.new ["a"] DefaultEOL.LF)
    (Reachable.new_ ["a"] DefaultEOL.LF)
    ((TextBuffer.new ["a"] DefaultEOL.LF).tree.getD 0 Node.defaultNode)
    (by decide) 2 3 1 (by decide)
  exact ⟨by decide, by decide, h.1, h.2⟩

end Dip
